import Mathlib

/-! Verification development for the neuron model runner's batch assembly and
sampling-index resolution algorithm (vllm/worker/neuron_model_runner.py).
Python lists of ints are modelled as Lean `List Int` (or `List Nat` where the
value is a length or a nonnegative index by construction), Python dicts as
association lists, and assertion failures / fatal precondition violations as
`Option.none` results. -/

/-- Sampling strategy tag, mirroring `SamplingType` (greedy / random / beam). -/
inductive SamplingType where
  | greedy
  | random
  | beam
  deriving Repr, DecidableEq

/-- Mirror of `SamplingParams`: the strategy tag, the optional fixed random
seed, and the optional `prompt_logprobs` request. -/
structure SamplingParams where
  samplingType : SamplingType
  seed : Option Nat
  promptLogprobs : Option Nat
  deriving Repr, DecidableEq

/-- Mirror of `SequenceData`: the ordered token ids of a sequence. -/
structure SequenceData where
  tokenIds : List Int
  deriving Repr, DecidableEq

/-- `SequenceData.get_token_ids`. -/
def SequenceData.getTokenIds (sd : SequenceData) : List Int := sd.tokenIds

/-- `SequenceData.get_last_token_id`; `none` on an empty sequence (where the
Python implementation would raise). -/
def SequenceData.getLastTokenId (sd : SequenceData) : Option Int := sd.tokenIds.getLast?

/-- `SequenceData.get_len`. -/
def SequenceData.getLen (sd : SequenceData) : Nat := sd.tokenIds.length

/-- Mirror of `SequenceGroupMetadata`: phase flag, seq-id -> sequence-data map
(as an ordered association list, like a Python dict's insertion order),
sampling params, seq-id -> block-table map, and the mutable
`state.generator` slot (generator handles are modelled as `Nat` ids). -/
structure SequenceGroupMetadata where
  isPrompt : Bool
  seqData : List (Nat × SequenceData)
  samplingParams : SamplingParams
  blockTables : List (Nat × List Int)
  generator : Option Nat
  deriving Repr, DecidableEq

/-- `_pad_to_max(x, max_len, pad)`: `assert len(x) <= max_len` then pad with
the fill value; the assertion failure is `none`. -/
def padToMax {α : Type} (x : List α) (maxLen : Nat) (pad : α) : Option (List α) :=
  if x.length ≤ maxLen then some (x ++ List.replicate (maxLen - x.length) pad) else none

/-- `_make_tensor_with_pad(x, max_len, pad, ...)`: pad every row. -/
def makeTensorWithPad {α : Type} (x : List (List α)) (maxLen : Nat) (pad : α) :
    Option (List (List α)) :=
  x.mapM (fun r => padToMax r maxLen pad)

/-- Python `max` over a nonempty list (`max(subquery_lens)` etc.). -/
def listMax : List Nat → Nat
  | [] => 0
  | x :: xs => xs.foldl Nat.max x

/-- `max_subquery_len = max(subquery_lens) if subquery_lens else 1`: both
`None` and the empty list are falsy in Python. -/
def maxSubqueryLen : Option (List Nat) → Nat
  | none => 1
  | some [] => 1
  | some (x :: xs) => listMax (x :: xs)

/-- The per-strategy sample-index buckets,
`categorized_sample_indices = \x7bt: [] for t in SamplingType\x7d`. -/
structure Buckets where
  greedy : List Nat
  random : List Nat
  beam : List Nat
  deriving Repr, DecidableEq

def Buckets.empty : Buckets := ⟨[], [], []⟩

/-- Read the bucket of one strategy. -/
def Buckets.get (b : Buckets) : SamplingType → List Nat
  | SamplingType.greedy => b.greedy
  | SamplingType.random => b.random
  | SamplingType.beam => b.beam

/-- `categorized_sample_indices[t].extend(ids)` / `.append` for one strategy. -/
def Buckets.extendBucket (b : Buckets) (t : SamplingType) (ids : List Nat) : Buckets :=
  match t with
  | SamplingType.greedy => { b with greedy := b.greedy ++ ids }
  | SamplingType.random => { b with random := b.random ++ ids }
  | SamplingType.beam => { b with beam := b.beam ++ ids }

/-- The running state of the `_prepare_sample` loop: the selected-token index
list, the `selected_token_start_idx` cursor, the per-strategy buckets, and the
`categorized_sample_indices_start_idx` cursor. -/
structure SampleState where
  selectedTokenIndices : List Nat
  selectedTokenStartIdx : Nat
  categorized : Buckets
  categorizedStartIdx : Nat
  deriving Repr, DecidableEq

/-- One prompt-phase iteration of the `_prepare_sample` loop (lines 186-205):
skip `subquery_len - 1` categorized positions when `prompt_logprobs` is set,
record the single sampling position in the strategy bucket, extend the
selected list with the prompt-logprob range and the last prompt position, and
advance the selected cursor by `max_subquery_len`. -/
def samplePromptUpdate (maxSub subLen : Nat) (t : SamplingType) (plp : Bool)
    (st : SampleState) : SampleState :=
  let c1 := if plp then st.categorizedStartIdx + subLen - 1 else st.categorizedStartIdx
  { selectedTokenIndices := st.selectedTokenIndices ++
      ((if plp then List.range' st.selectedTokenStartIdx (subLen - 1) else []) ++
        [st.selectedTokenStartIdx + subLen - 1]),
    selectedTokenStartIdx := st.selectedTokenStartIdx + maxSub,
    categorized := st.categorized.extendBucket t [c1],
    categorizedStartIdx := c1 + 1 }

/-- One decode-phase iteration of the `_prepare_sample` loop (lines 210-221):
the request contributes `num_seqs` contiguous selected rows, all of which
enter its strategy bucket. -/
def sampleDecodeUpdate (numSeqs : Nat) (t : SamplingType) (st : SampleState) : SampleState :=
  { selectedTokenIndices := st.selectedTokenIndices ++
      List.range' st.selectedTokenStartIdx numSeqs,
    selectedTokenStartIdx := st.selectedTokenStartIdx + numSeqs,
    categorized := st.categorized.extendBucket t
      (List.range' st.categorizedStartIdx numSeqs),
    categorizedStartIdx := st.categorizedStartIdx + numSeqs }

/-- The `for i, seq_group_metadata in enumerate(seq_group_metadata_list)` loop
of `_prepare_sample`, index computation only (the generator handling of lines
207-209 and 223-224 touches disjoint state and is modelled separately by
`generatorLoop`).  The prompt branch asserts `len(seq_ids) == 1` and
`subquery_lens is not None` and reads `subquery_lens[i]`; assertion failure is
`none`. -/
def sampleLoop (maxSub : Nat) (sl : Option (List Nat)) :
    List SequenceGroupMetadata → Nat → SampleState → Option SampleState
  | [], _, st => some st
  | sg :: rest, i, st =>
    if sg.isPrompt then
      if (sg.seqData.map Prod.fst).length = 1 then
        match sl with
        | none => none
        | some lens =>
          match lens[i]? with
          | none => none
          | some subLen =>
            sampleLoop maxSub sl rest (i + 1)
              (samplePromptUpdate maxSub subLen sg.samplingParams.samplingType
                sg.samplingParams.promptLogprobs.isSome st)
      else none
    else
      sampleLoop maxSub sl rest (i + 1)
        (sampleDecodeUpdate (sg.seqData.map Prod.fst).length
          sg.samplingParams.samplingType st)

/-- `_prepare_sample`, restricted to the selected-token-index /
categorized-sample-index computation: run the loop from both cursors at 0. -/
def prepareSampleIndices (sgml : List SequenceGroupMetadata)
    (subqueryLens : Option (List Nat)) : Option SampleState :=
  sampleLoop (maxSubqueryLen subqueryLens) subqueryLens sgml 0 ⟨[], 0, Buckets.empty, 0⟩

/-- Lines 207-209 of `_prepare_sample`: in the prompt branch, a seeded request
gets a freshly created generator handle assigned to its persistent
`state.generator` slot; decode requests never write the slot. -/
def updateRequestGenerator (isPromptPhase : Bool) (seed : Option Nat)
    (gen : Option Nat) (fresh : Nat) : Option Nat :=
  if isPromptPhase then
    match seed with
    | some _ => some fresh
    | none => gen
  else gen

/-- Lines 223-224 of `_prepare_sample`: after the branch, a seeded request
appends its (possibly just written) `state.generator` to the generator list. -/
def generatorAppendEntry (seed : Option Nat) (gen : Option Nat) : List (Option Nat) :=
  match seed with
  | some _ => [gen]
  | none => []

/-- One request's generator resolution: the updated `state.generator` slot and
the entries appended to the ordered generator list. -/
def resolveRequestGenerator (isPromptPhase : Bool) (seed : Option Nat)
    (gen : Option Nat) (fresh : Nat) : Option Nat × List (Option Nat) :=
  let gen1 := updateRequestGenerator isPromptPhase seed gen fresh
  (gen1, generatorAppendEntry seed gen1)

/-- The generator side of the `_prepare_sample` loop: walk the requests in
order, resolving each one's generator; returns the updated request list (the
mutation of each request's persistent `state.generator`), the ordered
generator list, and the next fresh handle id. -/
def generatorLoop : List SequenceGroupMetadata → Nat →
    List SequenceGroupMetadata × List (Option Nat) × Nat
  | [], fresh => ([], [], fresh)
  | sg :: rest, fresh =>
    let r := resolveRequestGenerator sg.isPrompt sg.samplingParams.seed sg.generator fresh
    let rec1 := generatorLoop rest (fresh + 1)
    ({ sg with generator := r.1 } :: rec1.1, r.2 ++ rec1.2.1, rec1.2.2)

/-- The generator handles a batch's ordered generator list is expected to
hold: one entry per seeded request, namely its stored handle. -/
def seededGenerators (sgml : List SequenceGroupMetadata) : List (Option Nat) :=
  (sgml.map (fun sg =>
    match sg.samplingParams.seed with
    | some _ => [sg.generator]
    | none => [])).flatten

/-- The values `_prepare_prompt` builds: padded token rows, padded position
rows, per-request block ids, prompt lengths and subquery lengths. -/
structure PromptBuilt where
  inputTokens : List (List Int)
  inputPositions : List (List Int)
  inputBlockIds : List Int
  promptLens : List Nat
  subqueryLens : List Nat
  deriving Repr, DecidableEq

/-- One iteration of the `_prepare_prompt` loop (lines 69-93): assert the
request is prompt-phase with exactly one sequence, read its prompt tokens
(`computed_len` is 0, so the subquery length equals the prompt length and the
positions are `0..prompt_len-1`), and assert a single-entry block table. -/
def promptRequestStep (sg : SequenceGroupMetadata) (acc : PromptBuilt) :
    Option PromptBuilt :=
  if sg.isPrompt then
    match sg.seqData.map Prod.fst with
    | [seqId] =>
      match List.lookup seqId sg.seqData with
      | none => none
      | some sd =>
        let promptTokens := sd.getTokenIds
        let promptLen := promptTokens.length
        match List.lookup seqId sg.blockTables with
        | none => none
        | some blockTable =>
          match blockTable with
          | [b] => some
              { inputTokens := acc.inputTokens ++ [promptTokens],
                inputPositions := acc.inputPositions ++
                  [(List.range promptLen).map Int.ofNat],
                inputBlockIds := acc.inputBlockIds ++ [b],
                promptLens := acc.promptLens ++ [promptLen],
                subqueryLens := acc.subqueryLens ++ [promptLen] }
          | _ => none
    | _ => none
  else none

/-- The request loop of `_prepare_prompt`. -/
def promptLoop : List SequenceGroupMetadata → PromptBuilt → Option PromptBuilt
  | [], acc => some acc
  | sg :: rest, acc =>
    match promptRequestStep sg acc with
    | none => none
    | some acc1 => promptLoop rest acc1

/-- `_prepare_prompt`: assert a nonempty batch, run the loop, compute
`max_prompt_len = max(subquery_lens)`, assert it positive, and pad the token
and position rows to that width with zero fill. -/
def preparePrompt (sgml : List SequenceGroupMetadata) : Option PromptBuilt :=
  if sgml.length > 0 then
    match promptLoop sgml ⟨[], [], [], [], []⟩ with
    | none => none
    | some acc =>
      let maxPromptLen := listMax acc.subqueryLens
      if maxPromptLen > 0 then
        match makeTensorWithPad acc.inputTokens maxPromptLen 0 with
        | none => none
        | some tks =>
          match makeTensorWithPad acc.inputPositions maxPromptLen 0 with
          | none => none
          | some pos => some
              { inputTokens := tks,
                inputPositions := pos,
                inputBlockIds := acc.inputBlockIds,
                promptLens := acc.promptLens,
                subqueryLens := acc.subqueryLens }
      else none
  else none

/-- Everything `_prepare_decode` computes per sequence row: the single-token
rows, the single-position rows, the block ids, and the context lengths
(which the function computes but does not return). -/
structure DecodeBuilt where
  inputTokens : List (List Int)
  inputPositions : List (List Int)
  inputBlockIds : List Int
  contextLens : List Int
  deriving Repr, DecidableEq

/-- One sequence's iteration inside the `_prepare_decode` loop (lines
130-146): its last generated token is the single input token, its position is
`seq_len - 1`, its context length is `seq_len` clipped to the sliding window
when one is configured, and its block table must have exactly one entry. -/
def decodeSeqStep (slidingWindow : Option Nat) (sg : SequenceGroupMetadata)
    (acc : DecodeBuilt) (seqId : Nat) : Option DecodeBuilt :=
  match List.lookup seqId sg.seqData with
  | none => none
  | some sd =>
    match sd.getLastTokenId with
    | none => none
    | some generationToken =>
      let seqLen := sd.getLen
      let position : Int := (seqLen : Int) - 1
      let contextLen : Nat :=
        match slidingWindow with
        | none => seqLen
        | some w => min seqLen w
      match List.lookup seqId sg.blockTables with
      | none => none
      | some blockTable =>
        match blockTable with
        | [b] => some
            { inputTokens := acc.inputTokens ++ [[generationToken]],
              inputPositions := acc.inputPositions ++ [[position]],
              inputBlockIds := acc.inputBlockIds ++ [b],
              contextLens := acc.contextLens ++ [(contextLen : Int)] }
        | _ => none

/-- The inner `for seq_id in seq_ids` loop of `_prepare_decode`. -/
def decodeSeqLoop (slidingWindow : Option Nat) (sg : SequenceGroupMetadata) :
    List Nat → DecodeBuilt → Option DecodeBuilt
  | [], acc => some acc
  | sid :: rest, acc =>
    match decodeSeqStep slidingWindow sg acc sid with
    | none => none
    | some acc1 => decodeSeqLoop slidingWindow sg rest acc1

/-- The outer request loop of `_prepare_decode`: assert each request is
decode-phase, then walk its sequences in order. -/
def decodeReqLoop (slidingWindow : Option Nat) :
    List SequenceGroupMetadata → DecodeBuilt → Option DecodeBuilt
  | [], acc => some acc
  | sg :: rest, acc =>
    if sg.isPrompt then none
    else
      match decodeSeqLoop slidingWindow sg (sg.seqData.map Prod.fst) acc with
      | none => none
      | some acc1 => decodeReqLoop slidingWindow rest acc1

/-- `_prepare_decode`: assert a nonempty batch, build all per-sequence rows,
and pad token/position rows to the fixed column width 1.  The structure holds
everything the function computes, including the context-length vector it
builds but leaves out of its return value. -/
def prepareDecode (slidingWindow : Option Nat)
    (sgml : List SequenceGroupMetadata) : Option DecodeBuilt :=
  if sgml.length > 0 then
    match decodeReqLoop slidingWindow sgml ⟨[], [], [], []⟩ with
    | none => none
    | some acc =>
      match makeTensorWithPad acc.inputTokens 1 0 with
      | none => none
      | some tks =>
        match makeTensorWithPad acc.inputPositions 1 0 with
        | none => none
        | some pos => some
            { inputTokens := tks,
              inputPositions := pos,
              inputBlockIds := acc.inputBlockIds,
              contextLens := acc.contextLens }
  else none

/-- The value `_prepare_decode` actually returns (line 165): the token rows,
the position rows and the block-id vector, nothing else. -/
structure DecodeReturn where
  inputTokens : List (List Int)
  inputPositions : List (List Int)
  inputBlockIds : List Int
  deriving Repr, DecidableEq

/-- `return (input_tokens, input_positions, input_block_ids)`. -/
def prepareDecodeReturn (slidingWindow : Option Nat)
    (sgml : List SequenceGroupMetadata) : Option DecodeReturn :=
  (prepareDecode slidingWindow sgml).map
    (fun d => ⟨d.inputTokens, d.inputPositions, d.inputBlockIds⟩)

/-- Spec-side shape of one request as the Sampling Index Resolver sees it:
a prompt-phase request with its subquery length and prompt-logprobs flag, or a
decode-phase request with its sequence count. -/
inductive StepKind where
  | promptKind (subLen : Nat) (plp : Bool)
  | decodeKind (numSeqs : Nat)
  deriving Repr, DecidableEq

/-- One request's shape together with its sampling strategy. -/
structure StepInfo where
  kind : StepKind
  stype : SamplingType
  deriving Repr, DecidableEq

/-- Spec walk, selected indices contributed by one request at cursor `s`:
for a prompt request, the contiguous range `[s, s+subLen-1)` when
`prompt_logprobs` is set, followed unconditionally by the single index
`s + subLen - 1`; for a decode request, the range `[s, s+numSeqs)`. -/
def stepSelContrib (s : Nat) : StepKind → List Nat
  | StepKind.promptKind len plp =>
      (if plp then List.range' s (len - 1) else []) ++ [s + len - 1]
  | StepKind.decodeKind n => List.range' s n

/-- Spec walk, selected-cursor advance of one request: `maxSubqueryLen` for a
prompt request (the padded row block width), `numSeqs` for a decode request. -/
def stepSelAdv (maxSub : Nat) : StepKind → Nat
  | StepKind.promptKind _ _ => maxSub
  | StepKind.decodeKind n => n

/-- Spec walk, positions requiring an actual next-token decision contributed
by one request at categorized cursor `c`: only the last prompt position for a
prompt request (prompt-logprob-only earlier positions are skipped), all
`numSeqs` positions for a decode request. -/
def stepDecisions (c : Nat) : StepKind → List Nat
  | StepKind.promptKind len plp => [if plp then c + len - 1 else c]
  | StepKind.decodeKind n => List.range' c n

/-- Spec walk, categorized-cursor advance of one request: `subLen` positions
for a prompt request with `prompt_logprobs` (the skipped prompt positions plus
the sampled one), 1 without, `numSeqs` for a decode request. -/
def stepCatAdv : StepKind → Nat
  | StepKind.promptKind len plp => if plp then len else 1
  | StepKind.decodeKind n => n

/-- Spec walk of the whole selected-token-index list: requests in order, a
cursor starting at `s` advancing by `stepSelAdv` per request. -/
def selWalk (maxSub : Nat) : List StepInfo → Nat → List Nat
  | [], _ => []
  | step :: rest, s =>
      stepSelContrib s step.kind ++ selWalk maxSub rest (s + stepSelAdv maxSub step.kind)

/-- Spec walk of all positions that require an actual next-token decision, in
request order. -/
def decisionWalk : List StepInfo → Nat → List Nat
  | [], _ => []
  | step :: rest, c =>
      stepDecisions c step.kind ++ decisionWalk rest (c + stepCatAdv step.kind)

/-- Spec walk of the bucket of one strategy `t`: the decision positions of
exactly the requests whose strategy is `t`. -/
def bucketWalk (t : SamplingType) : List StepInfo → Nat → List Nat
  | [], _ => []
  | step :: rest, c =>
      (if step.stype = t then stepDecisions c step.kind else []) ++
        bucketWalk t rest (c + stepCatAdv step.kind)

/-- Fold of `Buckets.extendBucket` along the walk. -/
def walkBuckets : Buckets → List StepInfo → Nat → Buckets
  | b, [], _ => b
  | b, step :: rest, c =>
      walkBuckets (b.extendBucket step.stype (stepDecisions c step.kind)) rest
        (c + stepCatAdv step.kind)

/-- Total selected-cursor advance of a walk. -/
def selTotal (maxSub : Nat) (steps : List StepInfo) : Nat :=
  (steps.map (fun step => stepSelAdv maxSub step.kind)).sum

/-- Total categorized-cursor advance of a walk. -/
def catTotal (steps : List StepInfo) : Nat :=
  (steps.map (fun step => stepCatAdv step.kind)).sum

/-- Shapes of an all-prefill batch, one per request, from the subquery-length
list. -/
def prefillStepsOf (rs : List SequenceGroupMetadata) (ls : List Nat) : List StepInfo :=
  List.zipWith
    (fun sg l =>
      ⟨StepKind.promptKind l sg.samplingParams.promptLogprobs.isSome,
        sg.samplingParams.samplingType⟩)
    rs ls

/-- Shapes of an all-decode batch, one per request. -/
def decodeStepsOf (rs : List SequenceGroupMetadata) : List StepInfo :=
  rs.map (fun sg =>
    ⟨StepKind.decodeKind (sg.seqData.map Prod.fst).length,
      sg.samplingParams.samplingType⟩)

/-- Shapes of a valid batch as dispatched by the orchestrator: an all-prefill
batch comes with its subquery-length list, an all-decode batch with none. -/
def stepsOfBatch (sgml : List SequenceGroupMetadata) :
    Option (List Nat) → List StepInfo
  | some lens => prefillStepsOf sgml lens
  | none => decodeStepsOf sgml

/-- Validity of a batch for the Sampling Index Resolver, matching the
scheduler's contract: an all-prefill batch has one subquery length per
request, every request prompt-phase with exactly one sequence, and nonempty
prompts; an all-decode batch has every request decode-phase. -/
def batchValid (sgml : List SequenceGroupMetadata) : Option (List Nat) → Prop
  | some lens =>
      lens.length = sgml.length ∧
      (∀ sg ∈ sgml, sg.isPrompt = true ∧ (sg.seqData.map Prod.fst).length = 1) ∧
      (∀ l ∈ lens, 1 ≤ l)
  | none => ∀ sg ∈ sgml, sg.isPrompt = false

instance (sgml : List SequenceGroupMetadata) (sl : Option (List Nat)) :
    Decidable (batchValid sgml sl) := by
  cases sl <;> simp only [batchValid] <;> infer_instance

/-- Every element of the list is below the bound. -/
def allBelow (l : List Nat) (n : Nat) : Prop := ∀ x ∈ l, x < n

instance (l : List Nat) (n : Nat) : Decidable (allBelow l n) := by
  simp only [allBelow]; infer_instance

theorem foldl_max_spec (bs : List Nat) :
    ∀ a : Nat, a ≤ List.foldl Nat.max a bs ∧ ∀ x ∈ bs, x ≤ List.foldl Nat.max a bs := by
  induction bs with
  | nil => intro a; exact ⟨Nat.le_refl a, by simp⟩
  | cons b bs ih =>
    intro a
    simp only [List.foldl_cons]
    refine ⟨le_trans (Nat.le_max_left a b) (ih (Nat.max a b)).1, ?_⟩
    intro x hx
    rcases List.mem_cons.mp hx with h | h
    · subst h
      exact le_trans (Nat.le_max_right a x) (ih (Nat.max a x)).1
    · exact (ih (Nat.max a b)).2 x h

theorem listMax_ge {l : List Nat} {x : Nat} (hx : x ∈ l) : x ≤ listMax l := by
  cases l with
  | nil => cases hx
  | cons a as =>
    simp only [listMax]
    rcases List.mem_cons.mp hx with h | h
    · subst h; exact (foldl_max_spec as x).1
    · exact (foldl_max_spec as a).2 x h

theorem le_maxSubqueryLen {lens : List Nat} {l : Nat} (hl : l ∈ lens) :
    l ≤ maxSubqueryLen (some lens) := by
  cases lens with
  | nil => cases hl
  | cons a as => simpa [maxSubqueryLen] using listMax_ge hl

theorem Buckets.get_extendBucket (b : Buckets) (t u : SamplingType) (ids : List Nat) :
    (b.extendBucket t ids).get u = b.get u ++ (if t = u then ids else []) := by
  cases t <;> cases u <;> simp [Buckets.extendBucket, Buckets.get]

theorem walkBuckets_get (steps : List StepInfo) :
    ∀ (b : Buckets) (c : Nat) (u : SamplingType),
      (walkBuckets b steps c).get u = b.get u ++ bucketWalk u steps c := by
  induction steps with
  | nil => intro b c u; simp [walkBuckets, bucketWalk]
  | cons step rest ih =>
    intro b c u
    simp only [walkBuckets, bucketWalk]
    rw [ih, Buckets.get_extendBucket, List.append_assoc]

/-- Closed form of the `_prepare_sample` loop on an all-prefill suffix: the
loop succeeds and behaves exactly as the spec walk over the requests' shapes,
threading both cursors. -/
theorem sampleLoop_prefill (maxSub : Nat) (lens : List Nat) :
    ∀ (rs : List SequenceGroupMetadata) (ls : List Nat) (i : Nat) (st : SampleState),
      List.drop i lens = ls →
      ls.length = rs.length →
      (∀ sg ∈ rs, sg.isPrompt = true ∧ (sg.seqData.map Prod.fst).length = 1) →
      (∀ l ∈ ls, 1 ≤ l) →
      sampleLoop maxSub (some lens) rs i st =
        some ⟨st.selectedTokenIndices ++
                selWalk maxSub (prefillStepsOf rs ls) st.selectedTokenStartIdx,
              st.selectedTokenStartIdx + selTotal maxSub (prefillStepsOf rs ls),
              walkBuckets st.categorized (prefillStepsOf rs ls) st.categorizedStartIdx,
              st.categorizedStartIdx + catTotal (prefillStepsOf rs ls)⟩ := by
  intro rs
  induction rs with
  | nil =>
    intro ls i st hdrop hlen _ _
    have hnil : ls = [] := List.length_eq_zero.mp (by simpa using hlen)
    subst hnil
    simp [sampleLoop, prefillStepsOf, selWalk, selTotal, catTotal, walkBuckets]
  | cons sg rest ih =>
    intro ls i st hdrop hlen hok hpos
    cases ls with
    | nil => simp at hlen
    | cons l ls2 =>
      have hsg := hok sg (by simp)
      have hget : lens[i]? = some l := by
        have h := List.getElem?_drop lens i 0
        rw [hdrop] at h
        simpa using h.symm
      have hdrop2 : List.drop (i + 1) lens = ls2 := by
        have h := List.drop_drop 1 i lens
        rw [hdrop] at h
        simpa using h.symm
      have hl1 : 1 ≤ l := hpos l (by simp)
      simp only [sampleLoop, hsg.1, hsg.2, hget, if_true]
      rw [ih ls2 (i + 1) _ hdrop2 (by simpa using hlen)
        (fun sg2 h2 => hok sg2 (by simp [h2])) (fun l2 h2 => hpos l2 (by simp [h2]))]
      simp only [prefillStepsOf, List.zipWith_cons_cons, selWalk, selTotal, catTotal,
        walkBuckets, List.map_cons, List.sum_cons, Option.some.injEq, SampleState.mk.injEq,
        samplePromptUpdate]
      refine ⟨?_, ?_, ?_, ?_⟩
      · simp [stepSelContrib, stepSelAdv, List.append_assoc]
      · simp [stepSelAdv, Nat.add_assoc]
      · have hc : ((if sg.samplingParams.promptLogprobs.isSome then
              st.categorizedStartIdx + l - 1 else st.categorizedStartIdx) + 1) =
            st.categorizedStartIdx + stepCatAdv (StepKind.promptKind l
              sg.samplingParams.promptLogprobs.isSome) := by
          simp only [stepCatAdv]
          cases sg.samplingParams.promptLogprobs.isSome <;> (simp; try omega)
        rw [stepDecisions, hc]
      · simp only [stepCatAdv]
        cases sg.samplingParams.promptLogprobs.isSome <;> simp <;> omega

/-- Closed form of the `_prepare_sample` loop on an all-decode suffix. -/
theorem sampleLoop_decode (maxSub : Nat) (sl : Option (List Nat)) :
    ∀ (rs : List SequenceGroupMetadata) (i : Nat) (st : SampleState),
      (∀ sg ∈ rs, sg.isPrompt = false) →
      sampleLoop maxSub sl rs i st =
        some ⟨st.selectedTokenIndices ++
                selWalk maxSub (decodeStepsOf rs) st.selectedTokenStartIdx,
              st.selectedTokenStartIdx + selTotal maxSub (decodeStepsOf rs),
              walkBuckets st.categorized (decodeStepsOf rs) st.categorizedStartIdx,
              st.categorizedStartIdx + catTotal (decodeStepsOf rs)⟩ := by
  intro rs
  induction rs with
  | nil =>
    intro i st _
    simp [sampleLoop, decodeStepsOf, selWalk, selTotal, catTotal, walkBuckets]
  | cons sg rest ih =>
    intro i st hok
    have hsg := hok sg (by simp)
    simp only [sampleLoop, hsg, Bool.false_eq_true, if_false]
    rw [ih (i + 1) _ (fun sg2 h2 => hok sg2 (by simp [h2]))]
    simp only [decodeStepsOf, List.map_cons, selWalk, selTotal, catTotal, List.sum_cons,
      walkBuckets, Option.some.injEq, SampleState.mk.injEq, sampleDecodeUpdate]
    refine ⟨?_, ?_, ?_, ?_⟩
    · simp [stepSelContrib, stepSelAdv, List.append_assoc]
    · simp [stepSelAdv, Nat.add_assoc]
    · rw [stepDecisions, stepCatAdv]
    · simp [stepCatAdv, Nat.add_assoc]

/-- A well-formed request shape: prompt subquery lengths are positive
(prompts are nonempty). -/
def stepOk : StepKind → Prop
  | StepKind.promptKind len _ => 1 ≤ len
  | StepKind.decodeKind _ => True

/-- All shapes of a walk are well-formed. -/
def stepsOk (steps : List StepInfo) : Prop := ∀ step ∈ steps, stepOk step.kind

/-- A request shape compatible with the padded row block width: prompt
subquery lengths are positive and at most `maxSub`. -/
def stepFit (maxSub : Nat) : StepKind → Prop
  | StepKind.promptKind len _ => 1 ≤ len ∧ len ≤ maxSub
  | StepKind.decodeKind _ => True

/-- All shapes of a walk fit the padded row block width. -/
def stepsFit (maxSub : Nat) (steps : List StepInfo) : Prop :=
  ∀ step ∈ steps, stepFit maxSub step.kind

theorem mem_stepDecisions_bounds {k : StepKind} (hk : stepOk k) {c x : Nat}
    (hx : x ∈ stepDecisions c k) : c ≤ x ∧ x < c + stepCatAdv k := by
  cases k with
  | promptKind len plp =>
    simp only [stepDecisions, List.mem_singleton] at hx
    subst hx
    simp only [stepOk] at hk
    cases plp <;> (simp [stepCatAdv]; try omega)
  | decodeKind n =>
    simp only [stepDecisions] at hx
    simpa [stepCatAdv] using List.mem_range'_1.mp hx

theorem stepDecisions_pairwise (k : StepKind) (c : Nat) :
    List.Pairwise (· < ·) (stepDecisions c k) := by
  cases k with
  | promptKind len plp => simp [stepDecisions]
  | decodeKind n => exact List.pairwise_lt_range' c n

theorem catTotal_cons (step : StepInfo) (rest : List StepInfo) :
    catTotal (step :: rest) = stepCatAdv step.kind + catTotal rest := by
  simp [catTotal]

theorem mem_bucketWalk_bounds (t : SamplingType) :
    ∀ (steps : List StepInfo) (c x : Nat), stepsOk steps →
      x ∈ bucketWalk t steps c → c ≤ x ∧ x < c + catTotal steps := by
  intro steps
  induction steps with
  | nil => intro c x _ hx; simp [bucketWalk] at hx
  | cons step rest ih =>
    intro c x hok hx
    simp only [bucketWalk, List.mem_append] at hx
    have hokr : stepsOk rest := fun s hs => hok s (by simp [hs])
    rw [catTotal_cons]
    rcases hx with hx | hx
    · by_cases hts : step.stype = t
      · rw [if_pos hts] at hx
        have hb := mem_stepDecisions_bounds (hok step (by simp)) hx
        omega
      · rw [if_neg hts] at hx
        simp at hx
    · have hb := ih (c + stepCatAdv step.kind) x hokr hx
      omega

theorem mem_decisionWalk_bounds :
    ∀ (steps : List StepInfo) (c x : Nat), stepsOk steps →
      x ∈ decisionWalk steps c → c ≤ x ∧ x < c + catTotal steps := by
  intro steps
  induction steps with
  | nil => intro c x _ hx; simp [decisionWalk] at hx
  | cons step rest ih =>
    intro c x hok hx
    simp only [decisionWalk, List.mem_append] at hx
    have hokr : stepsOk rest := fun s hs => hok s (by simp [hs])
    rw [catTotal_cons]
    rcases hx with hx | hx
    · have hb := mem_stepDecisions_bounds (hok step (by simp)) hx
      omega
    · have hb := ih (c + stepCatAdv step.kind) x hokr hx
      omega

theorem bucketWalk_pairwise (t : SamplingType) :
    ∀ (steps : List StepInfo) (c : Nat), stepsOk steps →
      List.Pairwise (· < ·) (bucketWalk t steps c) := by
  intro steps
  induction steps with
  | nil => intro c _; simp [bucketWalk]
  | cons step rest ih =>
    intro c hok
    have hokr : stepsOk rest := fun s hs => hok s (by simp [hs])
    simp only [bucketWalk]
    rw [List.pairwise_append]
    refine ⟨?_, ih _ hokr, ?_⟩
    · by_cases hts : step.stype = t
      · rw [if_pos hts]; exact stepDecisions_pairwise step.kind c
      · rw [if_neg hts]; exact List.Pairwise.nil
    · intro a ha b hb
      by_cases hts : step.stype = t
      · rw [if_pos hts] at ha
        have hba := mem_stepDecisions_bounds (hok step (by simp)) ha
        have hbb := mem_bucketWalk_bounds t rest _ b hokr hb
        omega
      · rw [if_neg hts] at ha
        simp at ha

theorem decisionWalk_pairwise :
    ∀ (steps : List StepInfo) (c : Nat), stepsOk steps →
      List.Pairwise (· < ·) (decisionWalk steps c) := by
  intro steps
  induction steps with
  | nil => intro c _; simp [decisionWalk]
  | cons step rest ih =>
    intro c hok
    have hokr : stepsOk rest := fun s hs => hok s (by simp [hs])
    simp only [decisionWalk]
    rw [List.pairwise_append]
    refine ⟨stepDecisions_pairwise step.kind c, ih _ hokr, ?_⟩
    intro a ha b hb
    have hba := mem_stepDecisions_bounds (hok step (by simp)) ha
    have hbb := mem_decisionWalk_bounds rest _ b hokr hb
    omega

theorem bucketWalk_disjoint {t1 t2 : SamplingType} (hne : t1 ≠ t2) :
    ∀ (steps : List StepInfo) (c : Nat), stepsOk steps →
      ∀ x, x ∈ bucketWalk t1 steps c → x ∈ bucketWalk t2 steps c → False := by
  intro steps
  induction steps with
  | nil => intro c _ x hx _; simp [bucketWalk] at hx
  | cons step rest ih =>
    intro c hok x hx1 hx2
    have hokr : stepsOk rest := fun s hs => hok s (by simp [hs])
    simp only [bucketWalk, List.mem_append] at hx1 hx2
    rcases hx1 with hx1 | hx1 <;> rcases hx2 with hx2 | hx2
    · by_cases h1 : step.stype = t1
      · by_cases h2 : step.stype = t2
        · exact hne (h1.symm.trans h2)
        · rw [if_neg h2] at hx2; simp at hx2
      · rw [if_neg h1] at hx1; simp at hx1
    · by_cases h1 : step.stype = t1
      · rw [if_pos h1] at hx1
        have hba := mem_stepDecisions_bounds (hok step (by simp)) hx1
        have hbb := mem_bucketWalk_bounds t2 rest _ x hokr hx2
        omega
      · rw [if_neg h1] at hx1; simp at hx1
    · by_cases h2 : step.stype = t2
      · rw [if_pos h2] at hx2
        have hba := mem_stepDecisions_bounds (hok step (by simp)) hx2
        have hbb := mem_bucketWalk_bounds t1 rest _ x hokr hx1
        omega
      · rw [if_neg h2] at hx2; simp at hx2
    · exact ih _ hokr x hx1 hx2

theorem mem_decisionWalk_iff :
    ∀ (steps : List StepInfo) (c x : Nat),
      x ∈ decisionWalk steps c ↔
        x ∈ bucketWalk SamplingType.greedy steps c ∨
        x ∈ bucketWalk SamplingType.random steps c ∨
        x ∈ bucketWalk SamplingType.beam steps c := by
  intro steps
  induction steps with
  | nil => intro c x; simp [decisionWalk, bucketWalk]
  | cons step rest ih =>
    intro c x
    simp only [decisionWalk, bucketWalk, List.mem_append, ih]
    cases hts : step.stype <;> simp <;> tauto

theorem mem_stepSelContrib_bounds {maxSub : Nat} {k : StepKind} (hk : stepFit maxSub k)
    {s x : Nat} (hx : x ∈ stepSelContrib s k) : s ≤ x ∧ x < s + stepSelAdv maxSub k := by
  cases k with
  | promptKind len plp =>
    simp only [stepFit] at hk
    simp only [stepSelContrib, List.mem_append, List.mem_singleton] at hx
    rcases hx with hx | hx
    · cases plp with
      | false => simp at hx
      | true =>
        simp only [if_true] at hx
        have hb := List.mem_range'_1.mp hx
        simp only [stepSelAdv]
        omega
    · subst hx
      simp only [stepSelAdv]
      omega
  | decodeKind n =>
    simp only [stepSelContrib] at hx
    have hb := List.mem_range'_1.mp hx
    simpa [stepSelAdv] using hb

theorem stepSelContrib_pairwise {maxSub : Nat} {k : StepKind} (hk : stepFit maxSub k)
    (s : Nat) : List.Pairwise (· < ·) (stepSelContrib s k) := by
  cases k with
  | promptKind len plp =>
    simp only [stepFit] at hk
    simp only [stepSelContrib]
    rw [List.pairwise_append]
    refine ⟨?_, by simp, ?_⟩
    · cases plp with
      | false => simp
      | true => simpa using List.pairwise_lt_range' s (len - 1)
    · intro a ha b hb
      simp only [List.mem_singleton] at hb
      subst hb
      cases plp with
      | false => simp at ha
      | true =>
        simp only [if_true] at ha
        have := List.mem_range'_1.mp ha
        omega
  | decodeKind n =>
    exact List.pairwise_lt_range' s n

theorem mem_selWalk_lb (maxSub : Nat) :
    ∀ (steps : List StepInfo) (s x : Nat), stepsFit maxSub steps →
      x ∈ selWalk maxSub steps s → s ≤ x := by
  intro steps
  induction steps with
  | nil => intro s x _ hx; simp [selWalk] at hx
  | cons step rest ih =>
    intro s x hfit hx
    simp only [selWalk, List.mem_append] at hx
    rcases hx with hx | hx
    · exact (mem_stepSelContrib_bounds (hfit step (by simp)) hx).1
    · have := ih (s + stepSelAdv maxSub step.kind) x
        (fun st hs => hfit st (by simp [hs])) hx
      omega

theorem selWalk_pairwise (maxSub : Nat) :
    ∀ (steps : List StepInfo) (s : Nat), stepsFit maxSub steps →
      List.Pairwise (· < ·) (selWalk maxSub steps s) := by
  intro steps
  induction steps with
  | nil => intro s _; simp [selWalk]
  | cons step rest ih =>
    intro s hfit
    have hfr : stepsFit maxSub rest := fun st hs => hfit st (by simp [hs])
    simp only [selWalk]
    rw [List.pairwise_append]
    refine ⟨stepSelContrib_pairwise (hfit step (by simp)) s, ih _ hfr, ?_⟩
    intro a ha b hb
    have hba := mem_stepSelContrib_bounds (hfit step (by simp)) ha
    have hbb := mem_selWalk_lb maxSub rest _ b hfr hb
    omega

theorem selWalk_length (maxSub : Nat) :
    ∀ (steps : List StepInfo) (s : Nat), stepsOk steps →
      (selWalk maxSub steps s).length = catTotal steps := by
  intro steps
  induction steps with
  | nil => intro s _; simp [selWalk, catTotal]
  | cons step rest ih =>
    intro s hok
    simp only [selWalk, List.length_append, catTotal_cons]
    rw [ih _ (fun st hs => hok st (by simp [hs]))]
    have hc : (stepSelContrib s step.kind).length = stepCatAdv step.kind := by
      have h1 := hok step (by simp)
      cases hk : step.kind with
      | promptKind len plp =>
        rw [hk] at h1
        simp only [stepOk] at h1
        cases plp <;> (simp [stepSelContrib, stepCatAdv]; try omega)
      | decodeKind n => simp [stepSelContrib, stepCatAdv]
    omega

theorem prefillStepsOf_fit (m : Nat) :
    ∀ (rs : List SequenceGroupMetadata) (ls : List Nat),
      (∀ l ∈ ls, 1 ≤ l ∧ l ≤ m) → stepsFit m (prefillStepsOf rs ls) := by
  intro rs
  induction rs with
  | nil => intro ls _ step hs; simp [prefillStepsOf] at hs
  | cons sg rest ih =>
    intro ls hls step hs
    cases ls with
    | nil => simp [prefillStepsOf] at hs
    | cons l ls2 =>
      simp only [prefillStepsOf, List.zipWith_cons_cons, List.mem_cons] at hs
      rcases hs with hs | hs
      · subst hs; exact hls l (by simp)
      · exact ih ls2 (fun l2 h2 => hls l2 (by simp [h2])) step hs

theorem decodeStepsOf_fit (m : Nat) (rs : List SequenceGroupMetadata) :
    stepsFit m (decodeStepsOf rs) := by
  intro step hs
  rcases List.mem_map.mp hs with ⟨sg, _, rfl⟩
  trivial

theorem stepsFit_ok {m : Nat} {steps : List StepInfo} (h : stepsFit m steps) :
    stepsOk steps := by
  intro step hs
  have h2 := h step hs
  cases hk : step.kind with
  | promptKind len plp => rw [hk] at h2; exact h2.1
  | decodeKind n => trivial

theorem batchValid_fit {sgml : List SequenceGroupMetadata} {sl : Option (List Nat)}
    (h : batchValid sgml sl) :
    stepsFit (maxSubqueryLen sl) (stepsOfBatch sgml sl) := by
  cases sl with
  | some lens =>
    exact prefillStepsOf_fit _ sgml lens
      (fun l hl => ⟨h.2.2 l hl, le_maxSubqueryLen hl⟩)
  | none => exact decodeStepsOf_fit _ sgml

/-- Under the scheduler's batch-validity contract, `_prepare_sample`'s index
computation succeeds and equals the spec walk over the batch's shapes. -/
theorem prepareSampleIndices_valid {sgml : List SequenceGroupMetadata}
    {sl : Option (List Nat)} (h : batchValid sgml sl) :
    prepareSampleIndices sgml sl =
      some ⟨selWalk (maxSubqueryLen sl) (stepsOfBatch sgml sl) 0,
            selTotal (maxSubqueryLen sl) (stepsOfBatch sgml sl),
            walkBuckets Buckets.empty (stepsOfBatch sgml sl) 0,
            catTotal (stepsOfBatch sgml sl)⟩ := by
  cases sl with
  | some lens =>
    obtain ⟨hlen, hok, hpos⟩ := h
    have hm := sampleLoop_prefill (maxSubqueryLen (some lens)) lens sgml lens 0
      ⟨[], 0, Buckets.empty, 0⟩ (List.drop_zero lens) hlen hok hpos
    simpa [prepareSampleIndices, stepsOfBatch] using hm
  | none =>
    have hm := sampleLoop_decode (maxSubqueryLen none) none sgml 0
      ⟨[], 0, Buckets.empty, 0⟩ h
    simpa [prepareSampleIndices, stepsOfBatch] using hm

/-- The number of sequences of the whole batch,
`sum over requests of len(seq_ids)`. -/
def seqTotal (sgml : List SequenceGroupMetadata) : Nat :=
  (sgml.map (fun sg => (sg.seqData.map Prod.fst).length)).sum

theorem catTotal_decodeStepsOf (rs : List SequenceGroupMetadata) :
    catTotal (decodeStepsOf rs) = seqTotal rs := by
  induction rs with
  | nil => simp [catTotal, decodeStepsOf, seqTotal]
  | cons sg rest ih =>
    simp only [decodeStepsOf, List.map_cons, catTotal_cons, seqTotal, List.sum_cons] at *
    rw [ih]
    rfl

/-- The extra selected indices contributed by `prompt_logprobs` requests: one
per prompt position beyond the first. -/
def promptLogprobExtra (sgml : List SequenceGroupMetadata) (lens : List Nat) : Nat :=
  (List.zipWith
    (fun sg l => if sg.samplingParams.promptLogprobs.isSome then l - 1 else 0)
    sgml lens).sum

theorem catTotal_prefillStepsOf :
    ∀ (rs : List SequenceGroupMetadata) (ls : List Nat),
      ls.length = rs.length → (∀ l ∈ ls, 1 ≤ l) →
      catTotal (prefillStepsOf rs ls) = rs.length + promptLogprobExtra rs ls := by
  intro rs
  induction rs with
  | nil =>
    intro ls hlen _
    have : ls = [] := List.length_eq_zero.mp (by simpa using hlen)
    subst this
    simp [catTotal, prefillStepsOf, promptLogprobExtra]
  | cons sg rest ih =>
    intro ls hlen hpos
    cases ls with
    | nil => simp at hlen
    | cons l ls2 =>
      have hl := hpos l (by simp)
      simp only [prefillStepsOf, List.zipWith_cons_cons, catTotal_cons, promptLogprobExtra,
        List.sum_cons, List.length_cons] at *
      rw [ih ls2 (by omega) (fun l2 h2 => hpos l2 (by simp [h2]))]
      simp only [stepCatAdv, promptLogprobExtra]
      cases sg.samplingParams.promptLogprobs.isSome <;> simp <;> omega

/-- Deterministic (greedy) sampling configuration: no seed, no prompt
logprobs. -/
def spGreedy : SamplingParams := ⟨SamplingType.greedy, none, none⟩

/-- Stochastic sampling configuration requesting prompt logprobs. -/
def spRandomPlp : SamplingParams := ⟨SamplingType.random, none, some 0⟩

/-- Seeded stochastic sampling configuration. -/
def spSeeded : SamplingParams := ⟨SamplingType.random, some 42, none⟩

/-- Prefill request with prompt length 3 (the worked example of the spec). -/
def sgmPrefillA : SequenceGroupMetadata :=
  ⟨true, [(0, ⟨[11, 12, 13]⟩)], spGreedy, [(0, [0])], none⟩

/-- Prefill request with prompt length 5 (the worked example of the spec). -/
def sgmPrefillB : SequenceGroupMetadata :=
  ⟨true, [(1, ⟨[21, 22, 23, 24, 25]⟩)], spGreedy, [(1, [1])], none⟩

/-- Prefill request with prompt length 2 requesting prompt logprobs. -/
def sgmPrefillC : SequenceGroupMetadata :=
  ⟨true, [(2, ⟨[31, 32]⟩)], spRandomPlp, [(2, [2])], none⟩

/-- Decode request carrying two parallel sequences. -/
def sgmDecodeTwo : SequenceGroupMetadata :=
  ⟨false, [(0, ⟨[5, 6]⟩), (1, ⟨[7, 8]⟩)], spGreedy, [(0, [2]), (1, [3])], none⟩

/-- Decode request with one sequence of three tokens in block 7. -/
def sgmDecodeOne : SequenceGroupMetadata :=
  ⟨false, [(0, ⟨[10, 11, 12]⟩)], spGreedy, [(0, [7])], none⟩

/-- Seeded decode request whose generator handle 99 was created at its
prefill step. -/
def sgmDecodeSeeded : SequenceGroupMetadata :=
  ⟨false, [(0, ⟨[1, 2]⟩)], spSeeded, [(0, [4])], some 99⟩

theorem pairwise_lt_nodup {l : List Nat} (h : List.Pairwise (· < ·) l) : l.Nodup :=
  h.imp Nat.ne_of_lt

theorem length_le_sum : ∀ (ns : List Nat), (∀ n ∈ ns, 1 ≤ n) → ns.length ≤ ns.sum := by
  intro ns
  induction ns with
  | nil => intro _; simp
  | cons n rest ih =>
    intro h
    have h1 := h n (by simp)
    have h2 := ih (fun m hm => h m (by simp [hm]))
    simp only [List.length_cons, List.sum_cons]
    omega

/-- C1: for every all-prefill batch satisfying the prefill preconditions, the
selected-token-index list is exactly the spec walk: a cursor starting at 0
advancing by `maxSubqueryLen` per request, each request contributing
`[cursor, cursor+subqueryLen-1)` when `prompt_logprobs` is set followed by the
single index `cursor + subqueryLen - 1`. -/
theorem c1_prefill_selected_walk (sgml : List SequenceGroupMetadata) (lens : List Nat)
    (h : batchValid sgml (some lens)) :
    (prepareSampleIndices sgml (some lens)).map SampleState.selectedTokenIndices =
      some (selWalk (maxSubqueryLen (some lens)) (prefillStepsOf sgml lens) 0) := by
  rw [prepareSampleIndices_valid h]
  rfl

/-- Witness for C1 at the concrete two-request prefill batch with prompt
lengths 3 and 5. -/
theorem c1_prefill_selected_walk_witness :
    batchValid [sgmPrefillA, sgmPrefillB] (some [3, 5]) ∧
    (prepareSampleIndices [sgmPrefillA, sgmPrefillB] (some [3, 5])).map
        SampleState.selectedTokenIndices =
      some (selWalk (maxSubqueryLen (some [3, 5]))
        (prefillStepsOf [sgmPrefillA, sgmPrefillB] [3, 5]) 0) :=
  ⟨by decide, c1_prefill_selected_walk [sgmPrefillA, sgmPrefillB] [3, 5] (by decide)⟩

/-- C2: for every valid batch the per-strategy buckets are pairwise disjoint,
every index in every bucket is a distinct position within `[0, rows)` of the
flattened (selected) logits buffer, and their union is exactly the set of
positions that require an actual next-token decision, excluding
prompt-logprob-only earlier prompt positions (`decisionWalk`). -/
theorem c2_bucket_partition (sgml : List SequenceGroupMetadata) (sl : Option (List Nat))
    (st : SampleState) (h : batchValid sgml sl)
    (hst : prepareSampleIndices sgml sl = some st) :
    st.categorized.greedy.Nodup ∧ st.categorized.random.Nodup ∧
    st.categorized.beam.Nodup ∧
    st.categorized.greedy.Disjoint st.categorized.random ∧
    st.categorized.greedy.Disjoint st.categorized.beam ∧
    st.categorized.random.Disjoint st.categorized.beam ∧
    allBelow (st.categorized.greedy ++ st.categorized.random ++ st.categorized.beam)
      st.selectedTokenIndices.length ∧
    (st.categorized.greedy ++ st.categorized.random ++ st.categorized.beam).toFinset =
      (decisionWalk (stepsOfBatch sgml sl) 0).toFinset := by
  rw [prepareSampleIndices_valid h] at hst
  have hw : st = ⟨selWalk (maxSubqueryLen sl) (stepsOfBatch sgml sl) 0,
      selTotal (maxSubqueryLen sl) (stepsOfBatch sgml sl),
      walkBuckets Buckets.empty (stepsOfBatch sgml sl) 0,
      catTotal (stepsOfBatch sgml sl)⟩ := (Option.some.inj hst).symm
  subst hw
  have hfit := batchValid_fit h
  have hok := stepsFit_ok hfit
  have hbg : (walkBuckets Buckets.empty (stepsOfBatch sgml sl) 0).greedy =
      bucketWalk SamplingType.greedy (stepsOfBatch sgml sl) 0 := by
    simpa [Buckets.get, Buckets.empty] using
      walkBuckets_get (stepsOfBatch sgml sl) Buckets.empty 0 SamplingType.greedy
  have hbr : (walkBuckets Buckets.empty (stepsOfBatch sgml sl) 0).random =
      bucketWalk SamplingType.random (stepsOfBatch sgml sl) 0 := by
    simpa [Buckets.get, Buckets.empty] using
      walkBuckets_get (stepsOfBatch sgml sl) Buckets.empty 0 SamplingType.random
  have hbb : (walkBuckets Buckets.empty (stepsOfBatch sgml sl) 0).beam =
      bucketWalk SamplingType.beam (stepsOfBatch sgml sl) 0 := by
    simpa [Buckets.get, Buckets.empty] using
      walkBuckets_get (stepsOfBatch sgml sl) Buckets.empty 0 SamplingType.beam
  have hlen : (selWalk (maxSubqueryLen sl) (stepsOfBatch sgml sl) 0).length =
      catTotal (stepsOfBatch sgml sl) := selWalk_length _ _ 0 hok
  refine ⟨?_, ?_, ?_, ?_, ?_, ?_, ?_, ?_⟩
  · simp only [hbg]
    exact pairwise_lt_nodup (bucketWalk_pairwise SamplingType.greedy _ 0 hok)
  · simp only [hbr]
    exact pairwise_lt_nodup (bucketWalk_pairwise SamplingType.random _ 0 hok)
  · simp only [hbb]
    exact pairwise_lt_nodup (bucketWalk_pairwise SamplingType.beam _ 0 hok)
  · simp only [hbg, hbr]
    intro a ha hb
    exact bucketWalk_disjoint (by decide) _ 0 hok a ha hb
  · simp only [hbg, hbb]
    intro a ha hb
    exact bucketWalk_disjoint (by decide) _ 0 hok a ha hb
  · simp only [hbr, hbb]
    intro a ha hb
    exact bucketWalk_disjoint (by decide) _ 0 hok a ha hb
  · simp only [hbg, hbr, hbb]
    intro x hx
    simp only [List.mem_append] at hx
    have hx2 : x < 0 + catTotal (stepsOfBatch sgml sl) := by
      rcases hx with (hx | hx) | hx
      · exact (mem_bucketWalk_bounds _ _ 0 x hok hx).2
      · exact (mem_bucketWalk_bounds _ _ 0 x hok hx).2
      · exact (mem_bucketWalk_bounds _ _ 0 x hok hx).2
    show x < (selWalk (maxSubqueryLen sl) (stepsOfBatch sgml sl) 0).length
    omega
  · simp only [hbg, hbr, hbb]
    apply Finset.ext
    intro a
    simp only [List.mem_toFinset, List.mem_append]
    rw [mem_decisionWalk_iff (stepsOfBatch sgml sl) 0 a]
    tauto

/-- Witness for C2 at a concrete one-request prefill batch with
`prompt_logprobs` set: the random bucket holds position 1, positions 0 is
prompt-logprob-only, and rows = 2. -/
theorem c2_bucket_partition_witness :
    batchValid [sgmPrefillC] (some [2]) ∧
    (List.Nodup ([] : List Nat) ∧ List.Nodup [1] ∧ List.Nodup ([] : List Nat) ∧
      List.Disjoint ([] : List Nat) [1] ∧
      List.Disjoint ([] : List Nat) ([] : List Nat) ∧
      List.Disjoint [1] ([] : List Nat) ∧
      allBelow (([] : List Nat) ++ [1] ++ []) 2 ∧
      (([] : List Nat) ++ [1] ++ []).toFinset =
        (decisionWalk (stepsOfBatch [sgmPrefillC] (some [2])) 0).toFinset) :=
  ⟨by decide, c2_bucket_partition [sgmPrefillC] (some [2])
      ⟨[0, 1], 2, ⟨[], [1], []⟩, 2⟩ (by decide) (by decide)⟩

/-- C10: for every valid all-prefill or all-decode batch, the selected-token
index list is strictly increasing, hence all its entries are distinct. -/
theorem c10_selected_strictly_increasing (sgml : List SequenceGroupMetadata)
    (sl : Option (List Nat)) (st : SampleState) (h : batchValid sgml sl)
    (hst : prepareSampleIndices sgml sl = some st) :
    List.Sorted (· < ·) st.selectedTokenIndices ∧ st.selectedTokenIndices.Nodup := by
  rw [prepareSampleIndices_valid h] at hst
  have hw : st = ⟨selWalk (maxSubqueryLen sl) (stepsOfBatch sgml sl) 0,
      selTotal (maxSubqueryLen sl) (stepsOfBatch sgml sl),
      walkBuckets Buckets.empty (stepsOfBatch sgml sl) 0,
      catTotal (stepsOfBatch sgml sl)⟩ := (Option.some.inj hst).symm
  subst hw
  have hfit := batchValid_fit h
  have hs : List.Pairwise (· < ·) (selWalk (maxSubqueryLen sl) (stepsOfBatch sgml sl) 0) :=
    selWalk_pairwise _ _ 0 hfit
  exact ⟨hs, pairwise_lt_nodup hs⟩

/-- Witness for C10 at the concrete two-request prefill batch. -/
theorem c10_selected_strictly_increasing_witness :
    batchValid [sgmPrefillA, sgmPrefillB] (some [3, 5]) ∧
    (List.Sorted (· < ·) [2, 9] ∧ List.Nodup [2, 9]) :=
  ⟨by decide, c10_selected_strictly_increasing [sgmPrefillA, sgmPrefillB] (some [3, 5])
      ⟨[2, 9], 10, ⟨[0, 1], [], []⟩, 2⟩ (by decide) (by decide)⟩

/-- C3 counterexample: a valid all-decode batch of one request with two
parallel sequences and no `prompt_logprobs` anywhere yields two selected
indices for one request, so equality fails although no request sets
`prompt_logprobs`. -/
theorem c3_counterexample :
    batchValid [sgmDecodeTwo] none ∧
    ([sgmDecodeTwo].all fun sg => sg.samplingParams.promptLogprobs.isNone) = true ∧
    (prepareSampleIndices [sgmDecodeTwo] none).map
        (fun st => st.selectedTokenIndices.length) = some 2 ∧
    List.length [sgmDecodeTwo] = 1 ∧ (2 : Nat) ≠ 1 := by
  decide

/-- C3 as amended: `len(selected_token_indices)` is at least the number of
requests; in an all-prefill batch it equals the request count plus, for each
request with `prompt_logprobs`, one extra index per prompt position beyond
the first; in an all-decode batch (each request holding at least one
sequence) it equals the total sequence count, which exceeds the request count
exactly when some request holds several sequences. -/
theorem c3_amended_selected_length :
    (∀ (sgml : List SequenceGroupMetadata) (lens : List Nat),
        batchValid sgml (some lens) →
        (prepareSampleIndices sgml (some lens)).map
            (fun st => st.selectedTokenIndices.length) =
          some (sgml.length + promptLogprobExtra sgml lens)) ∧
    (∀ sgml : List SequenceGroupMetadata,
        batchValid sgml none →
        (∀ sg ∈ sgml, 1 ≤ (sg.seqData.map Prod.fst).length) →
        (prepareSampleIndices sgml none).map
            (fun st => st.selectedTokenIndices.length) =
          some (seqTotal sgml) ∧
        sgml.length ≤ seqTotal sgml) := by
  constructor
  · intro sgml lens h
    rw [prepareSampleIndices_valid h]
    have hok := stepsFit_ok (batchValid_fit h)
    simp only [Option.map_some', stepsOfBatch]
    rw [selWalk_length _ _ 0 (by simpa [stepsOfBatch] using hok)]
    rw [catTotal_prefillStepsOf sgml lens h.1 h.2.2]
  · intro sgml h hone
    rw [prepareSampleIndices_valid h]
    have hok := stepsFit_ok (batchValid_fit h)
    constructor
    · simp only [Option.map_some', stepsOfBatch]
      rw [selWalk_length _ _ 0 (by simpa [stepsOfBatch] using hok)]
      rw [catTotal_decodeStepsOf sgml]
    · have hlen : (sgml.map (fun sg => (sg.seqData.map Prod.fst).length)).length =
          sgml.length := List.length_map _ _
      have hle := length_le_sum (sgml.map (fun sg => (sg.seqData.map Prod.fst).length))
        (by
          intro n hn
          rcases List.mem_map.mp hn with ⟨sg, hsg, rfl⟩
          exact hone sg hsg)
      simpa [seqTotal, hlen] using hle

/-- Witness for C3-as-amended: the prefill part at the 3/5 batch with no
prompt logprobs (2 = 2 + 0), and the decode part at the two-sequence
one-request batch (2 selected indices, 1 ≤ 2). -/
theorem c3_amended_selected_length_witness :
    (batchValid [sgmPrefillA, sgmPrefillB] (some [3, 5]) ∧
      (prepareSampleIndices [sgmPrefillA, sgmPrefillB] (some [3, 5])).map
          (fun st => st.selectedTokenIndices.length) =
        some (List.length [sgmPrefillA, sgmPrefillB] +
          promptLogprobExtra [sgmPrefillA, sgmPrefillB] [3, 5])) ∧
    (batchValid [sgmDecodeTwo] none ∧
      (prepareSampleIndices [sgmDecodeTwo] none).map
          (fun st => st.selectedTokenIndices.length) = some (seqTotal [sgmDecodeTwo]) ∧
      List.length [sgmDecodeTwo] ≤ seqTotal [sgmDecodeTwo]) :=
  ⟨⟨by decide, c3_amended_selected_length.1 [sgmPrefillA, sgmPrefillB] [3, 5] (by decide)⟩,
    ⟨by decide, c3_amended_selected_length.2 [sgmDecodeTwo] (by decide) (by decide)⟩⟩

/-- C4 counterexample: at the batch of two prefill requests with prompt
lengths 3 and 5, deterministic sampling and no prompt logprobs,
`maxSubqueryLen` is 5 as claimed, but the first request's selected token
index is 2 (`subqueryLen - 1`), not 4. -/
theorem c4_counterexample :
    maxSubqueryLen (some [3, 5]) = 5 ∧
    (prepareSampleIndices [sgmPrefillA, sgmPrefillB] (some [3, 5])).map
        (fun st => st.selectedTokenIndices.head?) = some (some 2) ∧
    (2 : Nat) ≠ 4 := by
  decide

/-- C4 as amended: for that batch `maxSubqueryLen` is 5 and the selected
token indices are `[2, 9]`: the first request's index is
`0 * maxSubqueryLen + (subqueryLen - 1) = 2`, the second request's row block
starts at the fixed stride 5 and its index is `5 + 4 = 9`. -/
theorem c4_amended_example :
    maxSubqueryLen (some [3, 5]) = 5 ∧
    (prepareSampleIndices [sgmPrefillA, sgmPrefillB] (some [3, 5])).map
        SampleState.selectedTokenIndices = some [2, 9] := by
  decide

/-- All sequences of a decode batch, in request order then per-request
sequence order: the rows of the decode output. -/
def decodeSeqsOf (sgml : List SequenceGroupMetadata) : List (Nat × SequenceData) :=
  (sgml.map (fun sg => sg.seqData)).flatten

/-- Spec-side decode token rows: each row holds the sequence's last generated
token id. -/
def specDecodeTokens (sgml : List SequenceGroupMetadata) : List (List Int) :=
  (decodeSeqsOf sgml).map (fun p => [p.2.tokenIds.getLast?.getD 0])

/-- Spec-side decode position rows: each row holds `currentLength - 1`. -/
def specDecodePositions (sgml : List SequenceGroupMetadata) : List (List Int) :=
  (decodeSeqsOf sgml).map (fun p => [(p.2.tokenIds.length : Int) - 1])

/-- The context length of one sequence: `currentLength`, clipped to the
sliding window when one is configured. -/
def ctxLen (slidingWindow : Option Nat) (sd : SequenceData) : Nat :=
  match slidingWindow with
  | none => sd.tokenIds.length
  | some w => min sd.tokenIds.length w

/-- Spec-side decode context-length vector, one entry per sequence. -/
def specDecodeContextLens (slidingWindow : Option Nat)
    (sgml : List SequenceGroupMetadata) : List Int :=
  (decodeSeqsOf sgml).map (fun p => (ctxLen slidingWindow p.2 : Int))

/-- The single storage-block index of one sequence. -/
def blockOf (sg : SequenceGroupMetadata) (sid : Nat) : Int :=
  ((List.lookup sid sg.blockTables).getD []).headI

/-- Spec-side decode storage-block-index vector, one entry per sequence. -/
def specDecodeBlockIds (sgml : List SequenceGroupMetadata) : List Int :=
  (sgml.map (fun sg => sg.seqData.map (fun p => blockOf sg p.1))).flatten

/-- The sequence's block table exists and holds exactly one block. -/
def singleBlock (sg : SequenceGroupMetadata) (sid : Nat) : Prop :=
  ((List.lookup sid sg.blockTables).getD []).length = 1 ∧
    (List.lookup sid sg.blockTables).isSome = true

instance (sg : SequenceGroupMetadata) (sid : Nat) : Decidable (singleBlock sg sid) := by
  unfold singleBlock; infer_instance

/-- Well-formedness of a decode batch: every request decode-phase with
distinct sequence ids, every sequence nonempty with a single-block table. -/
def decodeBatchWf (sgml : List SequenceGroupMetadata) : Prop :=
  ∀ sg ∈ sgml, sg.isPrompt = false ∧ (sg.seqData.map Prod.fst).Nodup ∧
    ∀ p ∈ sg.seqData, p.2.tokenIds ≠ [] ∧ singleBlock sg p.1

instance (sgml : List SequenceGroupMetadata) : Decidable (decodeBatchWf sgml) := by
  unfold decodeBatchWf; infer_instance

theorem singleBlock_iff {sg : SequenceGroupMetadata} {sid : Nat} :
    singleBlock sg sid ↔ ∃ b, List.lookup sid sg.blockTables = some [b] := by
  unfold singleBlock
  cases hl : List.lookup sid sg.blockTables with
  | none => simp
  | some bt => simp [List.length_eq_one]

theorem lookup_self_of_nodup :
    ∀ (pairs : List (Nat × SequenceData)),
      (pairs.map Prod.fst).Nodup →
      ∀ p ∈ pairs, List.lookup p.1 pairs = some p.2 := by
  intro pairs
  induction pairs with
  | nil => intro _ p hp; cases hp
  | cons q rest ih =>
    intro hnd p hp
    simp only [List.map_cons, List.nodup_cons] at hnd
    rcases List.mem_cons.mp hp with hp | hp
    · subst hp
      simp [List.lookup]
    · have hne : p.1 ≠ q.1 := by
        intro heq
        exact hnd.1 (heq ▸ List.mem_map_of_mem Prod.fst hp)
      have hbeq : (p.1 == q.1) = false := by simpa using hne
      simp only [List.lookup, hbeq]
      exact ih hnd.2 p hp

theorem decodeSeqLoop_pairs (slidingWindow : Option Nat) (sg : SequenceGroupMetadata) :
    ∀ (pairs : List (Nat × SequenceData)) (acc : DecodeBuilt),
      (∀ p ∈ pairs, List.lookup p.1 sg.seqData = some p.2 ∧ p.2.tokenIds ≠ [] ∧
        (∃ b, List.lookup p.1 sg.blockTables = some [b])) →
      decodeSeqLoop slidingWindow sg (pairs.map Prod.fst) acc = some
        ⟨acc.inputTokens ++ pairs.map (fun p => [p.2.tokenIds.getLast?.getD 0]),
         acc.inputPositions ++ pairs.map (fun p => [(p.2.tokenIds.length : Int) - 1]),
         acc.inputBlockIds ++ pairs.map (fun p => blockOf sg p.1),
         acc.contextLens ++ pairs.map (fun p => (ctxLen slidingWindow p.2 : Int))⟩ := by
  intro pairs
  induction pairs with
  | nil => intro acc _; simp [decodeSeqLoop]
  | cons q rest ih =>
    intro acc h
    obtain ⟨hlook, hne, b, hbt⟩ := h q (by simp)
    obtain ⟨y, hy⟩ : ∃ y, q.2.tokenIds.getLast? = some y := by
      rcases List.exists_mem_of_ne_nil q.2.tokenIds hne with ⟨a, _⟩
      cases hgl : q.2.tokenIds.getLast? with
      | none => rw [List.getLast?_eq_none_iff] at hgl; simp [hgl] at hne
      | some y => exact ⟨y, rfl⟩
    have hblock : blockOf sg q.1 = b := by
      simp [blockOf, hbt]
    simp only [List.map_cons, decodeSeqLoop, decodeSeqStep, hlook, hy, hbt,
      SequenceData.getLastTokenId, SequenceData.getLen]
    rw [ih _ (fun p hp => h p (by simp [hp]))]
    simp only [Option.some.injEq, DecodeBuilt.mk.injEq]
    refine ⟨?_, ?_, ?_, ?_⟩
    · simp [hy, List.append_assoc]
    · simp [List.append_assoc]
    · simp [hblock, List.append_assoc]
    · simp [ctxLen, List.append_assoc]

theorem decodeReqLoop_spec (slidingWindow : Option Nat) :
    ∀ (rs : List SequenceGroupMetadata) (acc : DecodeBuilt),
      decodeBatchWf rs →
      decodeReqLoop slidingWindow rs acc = some
        ⟨acc.inputTokens ++ specDecodeTokens rs,
         acc.inputPositions ++ specDecodePositions rs,
         acc.inputBlockIds ++ specDecodeBlockIds rs,
         acc.contextLens ++ specDecodeContextLens slidingWindow rs⟩ := by
  intro rs
  induction rs with
  | nil =>
    intro acc _
    simp [decodeReqLoop, specDecodeTokens, specDecodePositions, specDecodeBlockIds,
      specDecodeContextLens, decodeSeqsOf]
  | cons sg rest ih =>
    intro acc hwf
    obtain ⟨hprompt, hnd, hseq⟩ := hwf sg (by simp)
    simp only [decodeReqLoop, hprompt, Bool.false_eq_true, if_false]
    rw [decodeSeqLoop_pairs slidingWindow sg sg.seqData acc
      (fun p hp => ⟨lookup_self_of_nodup sg.seqData hnd p hp, (hseq p hp).1,
        singleBlock_iff.mp (hseq p hp).2⟩)]
    have hrest : decodeBatchWf rest := fun sg2 h2 => hwf sg2 (by simp [h2])
    change decodeReqLoop slidingWindow rest _ = _
    rw [ih _ hrest]
    simp only [specDecodeTokens, specDecodePositions, specDecodeBlockIds,
      specDecodeContextLens, decodeSeqsOf, List.map_cons, List.flatten_cons,
      List.map_append, List.append_assoc]

theorem makeTensorWithPad_singletons {α : Type} (pad : α) :
    ∀ rows : List (List α), (∀ r ∈ rows, r.length = 1) →
      makeTensorWithPad rows 1 pad = some rows := by
  intro rows
  induction rows with
  | nil => intro _; rfl
  | cons r rest ih =>
    intro h
    have hr := h r (by simp)
    have hpad : padToMax r 1 pad = some r := by
      unfold padToMax
      rw [if_pos (by omega)]
      simp [hr]
    simp only [makeTensorWithPad, List.mapM_cons, hpad, Option.bind_eq_bind,
      Option.some_bind]
    have ihr := ih (fun r2 h2 => h r2 (by simp [h2]))
    simp only [makeTensorWithPad] at ihr
    rw [ihr]
    rfl

theorem seqTotal_eq_flatten_length (sgml : List SequenceGroupMetadata) :
    (decodeSeqsOf sgml).length = seqTotal sgml := by
  induction sgml with
  | nil => simp [decodeSeqsOf, seqTotal]
  | cons sg rest ih =>
    simp only [decodeSeqsOf, seqTotal, List.map_cons, List.flatten_cons,
      List.length_append, List.sum_cons, List.length_map] at *
    omega

/-- C6: for every well-formed all-decode batch, `_prepare_decode` builds one
row per sequence across all requests: the single input token is the
sequence's last generated token id, the position is `currentLength - 1`, the
context length is `currentLength` clipped to the sliding window exactly when
one is configured, and the row count is the total sequence count (not the
request count). -/
theorem c6_decode_rows (slidingWindow : Option Nat)
    (sgml : List SequenceGroupMetadata) (hne : sgml ≠ [])
    (hwf : decodeBatchWf sgml) :
    prepareDecode slidingWindow sgml = some
      ⟨specDecodeTokens sgml, specDecodePositions sgml, specDecodeBlockIds sgml,
        specDecodeContextLens slidingWindow sgml⟩ ∧
    (specDecodeTokens sgml).length = seqTotal sgml := by
  constructor
  · unfold prepareDecode
    rw [if_pos (by cases sgml with | nil => exact absurd rfl hne | cons a l => simp)]
    rw [decodeReqLoop_spec slidingWindow sgml ⟨[], [], [], []⟩ hwf]
    simp only [List.nil_append]
    rw [makeTensorWithPad_singletons 0 (specDecodeTokens sgml) (by
      intro r hr
      rcases List.mem_map.mp hr with ⟨p, _, rfl⟩
      rfl)]
    rw [makeTensorWithPad_singletons 0 (specDecodePositions sgml) (by
      intro r hr
      rcases List.mem_map.mp hr with ⟨p, _, rfl⟩
      rfl)]
  · rw [specDecodeTokens, List.length_map]
    exact seqTotal_eq_flatten_length sgml

/-- Witness for C6 at the concrete one-request, one-sequence decode batch
with tokens `[10, 11, 12]` in block 7 and no sliding window. -/
theorem c6_decode_rows_witness :
    ([sgmDecodeOne] : List SequenceGroupMetadata) ≠ [] ∧ decodeBatchWf [sgmDecodeOne] ∧
    (prepareDecode none [sgmDecodeOne] = some
        ⟨specDecodeTokens [sgmDecodeOne], specDecodePositions [sgmDecodeOne],
          specDecodeBlockIds [sgmDecodeOne], specDecodeContextLens none [sgmDecodeOne]⟩ ∧
      (specDecodeTokens [sgmDecodeOne]).length = seqTotal [sgmDecodeOne]) :=
  ⟨by decide, by decide, c6_decode_rows none [sgmDecodeOne] (by decide) (by decide)⟩

theorem decodeSeqStep_lengths {slidingWindow : Option Nat} {sg : SequenceGroupMetadata}
    {acc acc1 : DecodeBuilt} {sid : Nat}
    (h : decodeSeqStep slidingWindow sg acc sid = some acc1) :
    acc1.contextLens.length = acc.contextLens.length + 1 := by
  cases hsd : List.lookup sid sg.seqData with
  | none => simp [decodeSeqStep, hsd] at h
  | some sd =>
    cases hgl : sd.getLastTokenId with
    | none => simp [decodeSeqStep, hsd, hgl] at h
    | some tok =>
      cases hbt : List.lookup sid sg.blockTables with
      | none => simp [decodeSeqStep, hsd, hgl, hbt] at h
      | some bt =>
        rcases bt with _ | ⟨b, bt2⟩
        · simp [decodeSeqStep, hsd, hgl, hbt] at h
        · rcases bt2 with _ | ⟨b2, bt3⟩
          · simp only [decodeSeqStep, hsd, hgl, hbt] at h
            injection h with h2
            subst h2
            simp
          · simp [decodeSeqStep, hsd, hgl, hbt] at h

theorem decodeSeqLoop_lengths {slidingWindow : Option Nat} {sg : SequenceGroupMetadata} :
    ∀ (sids : List Nat) (acc acc1 : DecodeBuilt),
      decodeSeqLoop slidingWindow sg sids acc = some acc1 →
      acc1.contextLens.length = acc.contextLens.length + sids.length := by
  intro sids
  induction sids with
  | nil =>
    intro acc acc1 h
    injection h with h2
    subst h2
    simp
  | cons sid rest ih =>
    intro acc acc1 h
    simp only [decodeSeqLoop] at h
    split at h
    · exact absurd h (by simp)
    · rename_i acc2 hstep
      have h1 := decodeSeqStep_lengths hstep
      have h2 := ih acc2 acc1 h
      simp only [List.length_cons]
      omega

theorem decodeReqLoop_lengths {slidingWindow : Option Nat} :
    ∀ (rs : List SequenceGroupMetadata) (acc acc1 : DecodeBuilt),
      decodeReqLoop slidingWindow rs acc = some acc1 →
      acc1.contextLens.length = acc.contextLens.length + seqTotal rs := by
  intro rs
  induction rs with
  | nil =>
    intro acc acc1 h
    injection h with h2
    subst h2
    simp [seqTotal]
  | cons sg rest ih =>
    intro acc acc1 h
    simp only [decodeReqLoop] at h
    split at h
    · exact absurd h (by simp)
    · split at h
      · exact absurd h (by simp)
      · rename_i acc2 hstep
        have h1 := decodeSeqLoop_lengths _ acc acc2 hstep
        have h2 := ih acc2 acc1 h
        simp only [seqTotal, List.map_cons, List.sum_cons] at *
        omega

/-- C5 counterexample: at the one-request decode batch with tokens
`[10, 11, 12]` and block 7, the value `_prepare_decode` returns consists of
exactly the token rows `[[12]]`, the position rows `[[2]]` and the block-id
vector `[7]`; the context-length vector `[3]` it computes internally equals
none of these components, so the returned output does not include it. -/
theorem c5_counterexample :
    prepareDecodeReturn none [sgmDecodeOne] = some ⟨[[12]], [[2]], [7]⟩ ∧
    (prepareDecode none [sgmDecodeOne]).map DecodeBuilt.contextLens = some [3] ∧
    ([7] : List Int) ≠ [3] ∧ ([[12]] : List (List Int)) ≠ [[3]] ∧
    ([[2]] : List (List Int)) ≠ [[3]] := by
  decide

/-- C5 as amended: for every all-decode batch on which `_prepare_decode`
succeeds, it computes a context-length vector with one entry per sequence
row, but its returned output consists of only the token-id tensor, the
position-id tensor and the storage-block-index vector; the context-length
vector is not part of the return. -/
theorem c5_amended_decode_return (slidingWindow : Option Nat)
    (sgml : List SequenceGroupMetadata) (d : DecodeBuilt)
    (hd : prepareDecode slidingWindow sgml = some d) :
    prepareDecodeReturn slidingWindow sgml =
      some ⟨d.inputTokens, d.inputPositions, d.inputBlockIds⟩ ∧
    d.contextLens.length = seqTotal sgml := by
  constructor
  · rw [prepareDecodeReturn, hd]
    rfl
  · unfold prepareDecode at hd
    split at hd
    · split at hd
      · exact absurd hd (by simp)
      · rename_i acc hloop
        split at hd
        · exact absurd hd (by simp)
        · rename_i tks htks
          split at hd
          · exact absurd hd (by simp)
          · injection hd with h2
            subst h2
            have hl := decodeReqLoop_lengths sgml ⟨[], [], [], []⟩ acc hloop
            simpa using hl
    · exact absurd hd (by simp)

/-- Witness for C5-as-amended at the concrete one-request decode batch. -/
theorem c5_amended_decode_return_witness :
    prepareDecode none [sgmDecodeOne] = some ⟨[[12]], [[2]], [7], [3]⟩ ∧
    (prepareDecodeReturn none [sgmDecodeOne] = some ⟨[[12]], [[2]], [7]⟩ ∧
      List.length ([3] : List Int) = seqTotal [sgmDecodeOne]) :=
  ⟨by decide, c5_amended_decode_return none [sgmDecodeOne] ⟨[[12]], [[2]], [7], [3]⟩
    (by decide)⟩

/-- Every row of the dense structure has exactly the target length. -/
def allRowsLength {α : Type} (rows : List (List α)) (n : Nat) : Prop :=
  ∀ r ∈ rows, r.length = n

theorem mapM_eq_map_of_forall {α β : Type} (f : α → Option β) (g : α → β) :
    ∀ x : List α, (∀ a ∈ x, f a = some (g a)) → x.mapM f = some (x.map g) := by
  intro x
  induction x with
  | nil => intro _; rfl
  | cons a as ih =>
    intro h
    have ih2 := ih (fun a2 h2 => h a2 (by simp [h2]))
    simp only [List.mapM_cons, h a (by simp), ih2, Option.bind_eq_bind,
      Option.some_bind, List.map_cons]
    rfl

theorem mapM_none_of_mem {α β : Type} (f : α → Option β) :
    ∀ (x : List α) (a : α), a ∈ x → f a = none → x.mapM f = none := by
  intro x
  induction x with
  | nil => intro a ha _; cases ha
  | cons b bs ih =>
    intro a ha hfa
    rcases List.mem_cons.mp ha with ha | ha
    · subst ha
      rw [List.mapM_cons, hfa]
      rfl
    · rw [List.mapM_cons]
      cases hfb : f b with
      | none => rfl
      | some y =>
        simp only [Option.bind_eq_bind, Option.some_bind]
        rw [ih a ha hfa]
        rfl

/-- C7: given integer rows and a target length `L` at least every row's
length, the padding builder returns the dense rows-by-`L` structure in which
each row is its original values followed by the fill value repeated to length
`L`; and if some row's length exceeds `L`, it fails with an assertion
(`none`). -/
theorem c7_padding_contract :
    (∀ (x : List (List Int)) (L : Nat) (pad : Int),
        (∀ r ∈ x, r.length ≤ L) →
        makeTensorWithPad x L pad =
          some (x.map (fun r => r ++ List.replicate (L - r.length) pad)) ∧
        allRowsLength (x.map (fun r => r ++ List.replicate (L - r.length) pad)) L) ∧
    (∀ (x : List (List Int)) (L : Nat) (pad : Int) (r : List Int),
        r ∈ x → L < r.length → makeTensorWithPad x L pad = none) := by
  constructor
  · intro x L pad h
    constructor
    · exact mapM_eq_map_of_forall _ _ x (fun r hr => by
        unfold padToMax
        rw [if_pos (h r hr)])
    · intro r2 hr2
      rcases List.mem_map.mp hr2 with ⟨r, hr, rfl⟩
      have := h r hr
      simp only [List.length_append, List.length_replicate]
      omega
  · intro x L pad r hr hlen
    exact mapM_none_of_mem _ x r hr (by
      unfold padToMax
      rw [if_neg (by omega)])

/-- Witness for C7: padding `[[1, 2], [3]]` to width 2 with fill 0 yields
`[[1, 2], [3, 0]]`, and padding `[[1, 2, 3]]` to width 2 fails. -/
theorem c7_padding_contract_witness :
    ((∀ r ∈ [[1, 2], [3]], List.length r ≤ 2) ∧
      makeTensorWithPad [[1, 2], [3]] 2 (0 : Int) =
        some (List.map (fun r => r ++ List.replicate (2 - r.length) (0 : Int))
          [[1, 2], [3]]) ∧
      allRowsLength (List.map (fun r => r ++ List.replicate (2 - r.length) (0 : Int))
        [[1, 2], [3]]) 2) ∧
    makeTensorWithPad [[1, 2, 3]] 2 (0 : Int) = none :=
  ⟨⟨by decide, c7_padding_contract.1 [[1, 2], [3]] 2 0 (by decide)⟩,
    c7_padding_contract.2 [[1, 2, 3]] 2 0 [1, 2, 3] (by decide) (by decide)⟩

theorem generatorLoop_decode :
    ∀ (sgml : List SequenceGroupMetadata) (fresh : Nat),
      (∀ sg ∈ sgml, sg.isPrompt = false) →
      (generatorLoop sgml fresh).1 = sgml ∧
      (generatorLoop sgml fresh).2.1 = seededGenerators sgml := by
  intro sgml
  induction sgml with
  | nil => intro fresh _; exact ⟨rfl, rfl⟩
  | cons sg rest ih =>
    intro fresh h
    have hsg := h sg (by simp)
    have ihr := ih (fresh + 1) (fun sg2 h2 => h sg2 (by simp [h2]))
    simp only [generatorLoop, resolveRequestGenerator, updateRequestGenerator, hsg,
      Bool.false_eq_true, if_false, seededGenerators, List.map_cons, List.flatten_cons,
      generatorAppendEntry]
    constructor
    · rw [ihr.1, ← hsg]
    · rw [ihr.2]
      rfl

/-- C8: the per-request generator handle is written only at the prompt-phase
step (decode-phase resolution never modifies it); invoking the resolver on
the same seeded request across two sequential decode steps leaves the stored
handle untouched and appends the identical handle to the generator list both
times, one entry per seeded request. -/
theorem c8_generator_create_once :
    (∀ (seed : Option Nat) (gen : Option Nat) (fresh : Nat),
        (resolveRequestGenerator false seed gen fresh).1 = gen) ∧
    (∀ (s : Nat) (g0 : Option Nat) (f1 f2 f3 : Nat),
        (resolveRequestGenerator true (some s) g0 f1).1 = some f1 ∧
        resolveRequestGenerator false (some s) (some f1) f2 = (some f1, [some f1]) ∧
        resolveRequestGenerator false (some s) (some f1) f3 = (some f1, [some f1])) ∧
    (∀ (sgml : List SequenceGroupMetadata) (f1 f2 : Nat),
        (∀ sg ∈ sgml, sg.isPrompt = false) →
        (generatorLoop sgml f1).1 = sgml ∧
        (generatorLoop sgml f1).2.1 = seededGenerators sgml ∧
        (generatorLoop ((generatorLoop sgml f1).1) f2).2.1 =
          (generatorLoop sgml f1).2.1) := by
  refine ⟨?_, ?_, ?_⟩
  · intro seed gen fresh
    cases seed <;> rfl
  · intro s g0 f1 f2 f3
    exact ⟨rfl, rfl, rfl⟩
  · intro sgml f1 f2 h
    have h1 := generatorLoop_decode sgml f1 h
    have h2 := generatorLoop_decode sgml f2 h
    refine ⟨h1.1, h1.2, ?_⟩
    rw [h1.1, h2.2, h1.2]

/-- Witness for C8 at a concrete all-decode batch holding one seeded request
whose handle 99 was created at its prefill step: both decode resolutions
leave the request untouched and return the same generator list `[99]`. -/
theorem c8_generator_create_once_witness :
    (generatorLoop [sgmDecodeSeeded] 0).1 = [sgmDecodeSeeded] ∧
    (generatorLoop [sgmDecodeSeeded] 0).2.1 = seededGenerators [sgmDecodeSeeded] ∧
    (generatorLoop ((generatorLoop [sgmDecodeSeeded] 0).1) 5).2.1 =
      (generatorLoop [sgmDecodeSeeded] 0).2.1 :=
  c8_generator_create_once.2.2 [sgmDecodeSeeded] 0 5 (by decide)

theorem promptRequestStep_multi_seq {sg : SequenceGroupMetadata}
    (h : 1 < (sg.seqData.map Prod.fst).length) :
    ∀ acc, promptRequestStep sg acc = none := by
  intro acc
  unfold promptRequestStep
  cases hp : sg.isPrompt with
  | false => rfl
  | true =>
    simp only [if_true]
    rcases hl : sg.seqData.map Prod.fst with _ | ⟨a, _ | ⟨b, rest⟩⟩
    · rfl
    · rw [hl] at h
      simp at h
    · rfl

theorem promptRequestStep_multi_block {sg : SequenceGroupMetadata} {sid : Nat}
    {bt : List Int} (hids : sg.seqData.map Prod.fst = [sid])
    (hbt : List.lookup sid sg.blockTables = some bt) (hlen : bt.length ≠ 1) :
    ∀ acc, promptRequestStep sg acc = none := by
  intro acc
  unfold promptRequestStep
  cases hp : sg.isPrompt with
  | false => rfl
  | true =>
    simp only [if_true, hids]
    cases hsd : List.lookup sid sg.seqData with
    | none => rfl
    | some sd =>
      simp only [hbt]
      rcases bt with _ | ⟨b, _ | ⟨b2, rest⟩⟩
      · rfl
      · simp at hlen
      · rfl

theorem promptLoop_none_of_mem :
    ∀ (sgml : List SequenceGroupMetadata) (acc : PromptBuilt)
      (sg : SequenceGroupMetadata), sg ∈ sgml →
      (∀ acc2, promptRequestStep sg acc2 = none) →
      promptLoop sgml acc = none := by
  intro sgml
  induction sgml with
  | nil => intro acc sg hsg _; cases hsg
  | cons sg0 rest ih =>
    intro acc sg hsg hnone
    rcases List.mem_cons.mp hsg with hsg | hsg
    · subst hsg
      simp [promptLoop, hnone acc]
    · simp only [promptLoop]
      cases hstep : promptRequestStep sg0 acc with
      | none => rfl
      | some acc1 => exact ih acc1 sg hsg hnone

theorem preparePrompt_none_of_mem {sgml : List SequenceGroupMetadata}
    {sg : SequenceGroupMetadata} (hsg : sg ∈ sgml)
    (hnone : ∀ acc2, promptRequestStep sg acc2 = none) :
    preparePrompt sgml = none := by
  unfold preparePrompt
  rw [if_pos (List.length_pos.mpr (List.ne_nil_of_mem hsg))]
  rw [promptLoop_none_of_mem sgml ⟨[], [], [], [], []⟩ sg hsg hnone]

/-- C9: an empty batch, a prefill request with more than one sequence, or a
prefill request whose (single) sequence has more than one storage block each
make the batch builders fail their assertion and abort the step with `none`:
no silent coercion, no retry, no partial-batch result. -/
theorem c9_fatal_preconditions :
    preparePrompt [] = none ∧
    (∀ slidingWindow, prepareDecode slidingWindow [] = none) ∧
    (∀ (sgml : List SequenceGroupMetadata) (sg : SequenceGroupMetadata),
        sg ∈ sgml → 1 < (sg.seqData.map Prod.fst).length →
        preparePrompt sgml = none) ∧
    (∀ (sgml : List SequenceGroupMetadata) (sg : SequenceGroupMetadata)
        (sid : Nat) (bt : List Int),
        sg ∈ sgml → sg.seqData.map Prod.fst = [sid] →
        List.lookup sid sg.blockTables = some bt → bt.length ≠ 1 →
        preparePrompt sgml = none) := by
  refine ⟨rfl, fun slidingWindow => rfl, ?_, ?_⟩
  · intro sgml sg hsg hlen
    exact preparePrompt_none_of_mem hsg (promptRequestStep_multi_seq hlen)
  · intro sgml sg sid bt hsg hids hbt hlen
    exact preparePrompt_none_of_mem hsg (promptRequestStep_multi_block hids hbt hlen)

/-- Prefill request illegally carrying two sequences. -/
def sgmPrefillTwoSeqs : SequenceGroupMetadata :=
  ⟨true, [(0, ⟨[1, 2]⟩), (1, ⟨[3, 4]⟩)], spGreedy, [(0, [0]), (1, [1])], none⟩

/-- Prefill request whose sequence illegally has two storage blocks. -/
def sgmPrefillTwoBlocks : SequenceGroupMetadata :=
  ⟨true, [(0, ⟨[1, 2]⟩)], spGreedy, [(0, [5, 6])], none⟩

/-- Witness for C9: the empty decode batch and concrete bad prefill batches
all abort with `none`. -/
theorem c9_fatal_preconditions_witness :
    prepareDecode (some 3) [] = none ∧
    preparePrompt [sgmPrefillTwoSeqs] = none ∧
    preparePrompt [sgmPrefillTwoBlocks] = none :=
  ⟨c9_fatal_preconditions.2.1 (some 3),
    c9_fatal_preconditions.2.2.1 [sgmPrefillTwoSeqs] sgmPrefillTwoSeqs
      (by decide) (by decide),
    c9_fatal_preconditions.2.2.2 [sgmPrefillTwoBlocks] sgmPrefillTwoBlocks 0 [5, 6]
      (by decide) (by decide) (by decide) (by decide)⟩
